import Mathlib

/-!
# Verification of the votemapper TSP core (`scripts/optimize_routes.py`)

A shallow embedding of the open-path TSP solver core: the multi-start
nearest-neighbor fallback, the OR-Tools adapter with its dummy-node
reduction, and the batch driver in `main`.  Distance-matrix entries are
modelled as rationals (the Python code manipulates JSON numbers; the
`float("inf")` sentinels of the heuristic are modelled by `Option`, so
every matrix entry is a finite rational).  The external OR-Tools routing
engine is modelled as an oracle parameter returning the closed tour it
found over the augmented matrix, or `none` when it reports no solution.
-/

namespace VoteMapper

/-- Reads `distance_matrix[i][j]` as the Python code does; out-of-range reads
(never exercised on square input) default to `0`. -/
def entry (dm : List (List ℚ)) (i j : Nat) : ℚ :=
  (dm.getD i []).getD j 0

/-- The matrix is square: every row has length `n`. -/
def isSquare (dm : List (List ℚ)) : Prop :=
  ∀ row ∈ dm, row.length = dm.length

/-- All entries are non-negative. -/
def nonNeg (dm : List (List ℚ)) : Prop :=
  ∀ row ∈ dm, ∀ x ∈ row, 0 ≤ x

instance (dm : List (List ℚ)) : Decidable (isSquare dm) := by
  unfold isSquare; infer_instance

instance (dm : List (List ℚ)) : Decidable (nonNeg dm) := by
  unfold nonNeg; infer_instance

/-- Recomputed `total_distance`: the sum of
`dm[order[i]][order[i+1]]` over consecutive positions of `order`. -/
def pathCost (dm : List (List ℚ)) : List Nat → ℚ
  | a :: b :: rest => entry dm a b + pathCost dm (b :: rest)
  | _ => 0

/-- Last element `order[-1]` (the list is never empty where this is used). -/
def lastD (l : List Nat) : Nat :=
  l.getLast?.getD 0

/-- The comparison `dm[current][j] < best_dist`, where `best_dist` starts
at `float("inf")` (modelled by `none`). -/
def isBetter (x : ℚ) : Option (Nat × ℚ) → Bool
  | none => true
  | some p => decide (x < p.2)

/-- One iteration of the inner `for j in range(n)` loop of
`nearest_neighbor_tsp`: update `(best_next, best_dist)` when `j` is
unvisited and strictly closer. -/
def selStep (dm : List (List ℚ)) (visited : List Bool) (current : Nat)
    (acc : Option (Nat × ℚ)) (j : Nat) : Option (Nat × ℚ) :=
  if visited.getD j true = false ∧ isBetter (entry dm current j) acc = true then
    some (j, entry dm current j)
  else acc

/-- The inner candidate scan: `(best_next, best_dist)` after the full
`for j in range(n)` loop; `none` models `best_next == -1`. -/
def nnSelect (dm : List (List ℚ)) (visited : List Bool) (current : Nat) :
    Option (Nat × ℚ) :=
  (List.range dm.length).foldl (selStep dm visited current) none

/-- The `for _ in range(n - 1)` path-building loop: extend `order` by the
nearest unvisited node, breaking when none is found. -/
def nnLoop (dm : List (List ℚ)) :
    Nat → List Nat → List Bool → ℚ → List Nat × ℚ
  | 0, order, _, total => (order, total)
  | fuel + 1, order, visited, total =>
    match nnSelect dm visited (lastD order) with
    | none => (order, total)
    | some (j, d) => nnLoop dm fuel (order ++ [j]) (visited.set j true) (total + d)

/-- One greedy run of `nearest_neighbor_tsp` from a fixed `start`. -/
def nnRun (dm : List (List ℚ)) (start : Nat) : List Nat × ℚ :=
  nnLoop dm (dm.length - 1) [start]
    ((List.replicate dm.length false).set start true) 0

/-- One iteration of the outer `for start in range(n)` loop: keep the run
iff its total is strictly below the best so far (`none` models the
initial `float("inf")`). -/
def bestStep (dm : List (List ℚ)) (acc : Option (List Nat) × Option ℚ)
    (s : Nat) : Option (List Nat) × Option ℚ :=
  let r := nnRun dm s
  match acc.2 with
  | none => (some r.1, some r.2)
  | some b => if r.2 < b then (some r.1, some r.2) else acc

/-- The multi-start scan over all starting nodes. -/
def nnBest (dm : List (List ℚ)) : Option (List Nat) × Option ℚ :=
  (List.range dm.length).foldl (bestStep dm) (none, none)

/-- The function `nearest_neighbor_tsp`: `(best_order, best_total)`; the pair
`(none, none)` models the Python `(None, inf)` left when no run was
recorded. -/
def nearest_neighbor_tsp (dm : List (List ℚ)) :
    Option (List Nat) × Option ℚ :=
  if dm.length ≤ 1 then (some (List.range dm.length), some 0)
  else nnBest dm

/-- The augmented `(n+1) × (n+1)` matrix of `solve_tsp_ortools`: a dummy
node `n` with zero-cost edges to and from every real node. -/
def augMatrix (dm : List (List ℚ)) : List (List ℚ) :=
  (dm.map (fun row => row ++ [0])) ++ [List.replicate (dm.length + 1) 0]

/-- Strip the dummy node from the closed tour. -/
def stripDummy (n : Nat) (tour : List Nat) : List Nat :=
  tour.filter (fun x => decide (x ≠ n))

/-- The function `solve_tsp_ortools`, with the external routing engine abstracted as
`oracle`: given the augmented matrix, the oracle returns the closed tour
(`full_tour`, the node sequence from the depot until the end sentinel) or
`none` when the solver reports no feasible solution. -/
def solve_tsp_ortools (oracle : List (List ℚ) → Option (List Nat))
    (dm : List (List ℚ)) : Option (List Nat) × Option ℚ :=
  if dm.length ≤ 1 then (some (List.range dm.length), some 0)
  else if dm.length = 2 then (some [0, 1], some (entry dm 0 1))
  else
    match oracle (augMatrix dm) with
    | some full_tour =>
      (some (stripDummy dm.length full_tour),
        some (pathCost dm (stripDummy dm.length full_tour)))
    | none => nearest_neighbor_tsp dm

/-- One input cluster (`voterIds` is never inspected by the core and is
omitted). -/
structure Cluster where
  clusterId : Int
  distanceMatrix : List (List ℚ)
deriving DecidableEq

/-- One output route; the `Option`s carry the `None`/`inf` the heuristic
can in principle return. -/
structure Route where
  clusterId : Int
  orderedIndices : Option (List Nat)
  totalDistance : Option ℚ
deriving DecidableEq

/-- The batch request; `clusters = none` models a JSON object without the
`"clusters"` key (read with `data.get("clusters", [])`). -/
structure Request where
  clusters : Option (List Cluster)
deriving DecidableEq

/-- The batch response. -/
structure Response where
  routes : List Route
  solver : String
deriving DecidableEq

/-- The batch driver `main`, parametrised by `HAS_ORTOOLS` and the
routing-engine oracle. -/
def main (hasOrtools : Bool) (oracle : List (List ℚ) → Option (List Nat))
    (req : Request) : Response :=
  let clusters := req.clusters.getD []
  let routes := clusters.map (fun c =>
    let r :=
      if hasOrtools then solve_tsp_ortools oracle c.distanceMatrix
      else nearest_neighbor_tsp c.distanceMatrix
    Route.mk c.clusterId r.1 r.2)
  Response.mk routes (if hasOrtools then "ortools" else "nearest_neighbor")

/-! ## Helper lemmas on `getD` -/

lemma getD_set_self (l : List Bool) (j : Nat) (b d : Bool) (h : j < l.length) :
    (l.set j b).getD j d = b := by
  rw [List.getD_eq_getElem _ _ (by simpa using h)]
  simp

lemma getD_set_ne (l : List Bool) (i j : Nat) (b d : Bool) (h : i ≠ j) :
    (l.set j b).getD i d = l.getD i d := by
  by_cases hi : i < l.length
  · rw [List.getD_eq_getElem _ _ (by simpa using hi), List.getD_eq_getElem _ _ hi,
      List.getElem_set_ne (fun hji => h hji.symm)]
  · rw [List.getD_eq_default _ _ (by simpa using Nat.le_of_not_lt hi),
      List.getD_eq_default _ _ (Nat.le_of_not_lt hi)]

lemma getD_replicate_lt (n i : Nat) (x d : Bool) (h : i < n) :
    (List.replicate n x).getD i d = x := by
  rw [List.getD_eq_getElem _ _ (by simpa using h)]
  simp

/-! ## Specification of the inner candidate scan -/

/-- What the inner `for j in range(m)` loop guarantees about
`(best_next, best_dist)`: `none` means every scanned index is visited;
`some (j, d)` means `j` is an unvisited scanned index whose distance `d`
is minimal among unvisited scanned indices, with ties broken by lowest
index. -/
def SelP (dm : List (List ℚ)) (visited : List Bool) (current m : Nat) :
    Option (Nat × ℚ) → Prop
  | none => ∀ j, j < m → visited.getD j true = true
  | some (j, d) =>
      j < m ∧ visited.getD j true = false ∧ d = entry dm current j ∧
      ∀ jj, jj < m → visited.getD jj true = false →
        d ≤ entry dm current jj ∧ (entry dm current jj = d → j ≤ jj)

lemma selStep_update (dm : List (List ℚ)) (visited : List Bool) (current j : Nat)
    (acc : Option (Nat × ℚ)) (hu : visited.getD j true = false)
    (hb : isBetter (entry dm current j) acc = true) :
    selStep dm visited current acc j = some (j, entry dm current j) := by
  unfold selStep
  rw [if_pos ⟨hu, hb⟩]

lemma selStep_keep_visited (dm : List (List ℚ)) (visited : List Bool) (current j : Nat)
    (acc : Option (Nat × ℚ)) (hu : visited.getD j true = true) :
    selStep dm visited current acc j = acc := by
  unfold selStep
  rw [if_neg]
  rintro ⟨h1, -⟩
  rw [hu] at h1
  exact Bool.noConfusion h1

lemma selStep_keep_far (dm : List (List ℚ)) (visited : List Bool) (current j : Nat)
    (acc : Option (Nat × ℚ)) (hb : isBetter (entry dm current j) acc = false) :
    selStep dm visited current acc j = acc := by
  unfold selStep
  rw [if_neg]
  rintro ⟨-, h2⟩
  rw [hb] at h2
  exact Bool.false_ne_true h2

lemma selFold_spec (dm : List (List ℚ)) (visited : List Bool) (current : Nat) :
    ∀ m, SelP dm visited current m
      ((List.range m).foldl (selStep dm visited current) none) := by
  intro m
  induction m with
  | zero =>
    simp only [List.range_zero, List.foldl_nil, SelP]
    intro j hj
    exact absurd hj (Nat.not_lt_zero j)
  | succ m ih =>
    rw [List.range_succ, List.foldl_append, List.foldl_cons, List.foldl_nil]
    rcases hacc : (List.range m).foldl (selStep dm visited current) none with _ | ⟨j, d⟩
    · rw [hacc] at ih
      simp only [SelP] at ih
      by_cases hu : visited.getD m true = false
      · rw [selStep_update dm visited current m none hu rfl]
        refine ⟨Nat.lt_succ_self m, hu, rfl, ?_⟩
        intro jj hjj hujj
        rcases Nat.lt_succ_iff_lt_or_eq.mp hjj with h | h
        · rw [ih jj h] at hujj
          exact Bool.noConfusion hujj
        · rw [h]
          exact ⟨le_refl _, fun _ => le_refl _⟩
      · have hv : visited.getD m true = true := by
          cases hb : visited.getD m true
          · exact absurd hb hu
          · rfl
        rw [selStep_keep_visited dm visited current m none hv]
        simp only [SelP]
        intro jj hjj
        rcases Nat.lt_succ_iff_lt_or_eq.mp hjj with h | h
        · exact ih jj h
        · rw [h]; exact hv
    · rw [hacc] at ih
      simp only [SelP] at ih
      obtain ⟨hjm, huj, hd, hmin⟩ := ih
      by_cases hu : visited.getD m true = false
      · by_cases hlt : entry dm current m < d
        · rw [selStep_update dm visited current m (some (j, d)) hu
            (by simp [isBetter, hlt])]
          refine ⟨Nat.lt_succ_self m, hu, rfl, ?_⟩
          intro jj hjj hujj
          rcases Nat.lt_succ_iff_lt_or_eq.mp hjj with h | h
          · have h1 := (hmin jj h hujj).1
            exact ⟨by linarith, fun heq => absurd heq (by intro heq2; linarith)⟩
          · rw [h]
            exact ⟨le_refl _, fun _ => le_refl _⟩
        · rw [selStep_keep_far dm visited current m (some (j, d))
            (by simp [isBetter, hlt])]
          refine ⟨Nat.lt_succ_of_lt hjm, huj, hd, ?_⟩
          intro jj hjj hujj
          rcases Nat.lt_succ_iff_lt_or_eq.mp hjj with h | h
          · exact hmin jj h hujj
          · constructor
            · rw [h]; exact le_of_not_lt hlt
            · intro _; omega
      · have hv : visited.getD m true = true := by
          cases hb : visited.getD m true
          · exact absurd hb hu
          · rfl
        rw [selStep_keep_visited dm visited current m (some (j, d)) hv]
        refine ⟨Nat.lt_succ_of_lt hjm, huj, hd, ?_⟩
        intro jj hjj hujj
        rcases Nat.lt_succ_iff_lt_or_eq.mp hjj with h | h
        · exact hmin jj h hujj
        · rw [h] at hujj
          rw [hv] at hujj
          exact Bool.noConfusion hujj

/-- The scan `nnSelect` finds the nearest unvisited node (lowest index on ties). -/
lemma nnSelect_spec (dm : List (List ℚ)) (visited : List Bool) (current : Nat) :
    SelP dm visited current dm.length (nnSelect dm visited current) :=
  selFold_spec dm visited current dm.length

/-! ## The path-building loop -/

lemma exists_unvisited_index (order : List Nat) (n : Nat) (hlen : order.length < n)
    (hmem : ∀ j ∈ order, j < n) (hnd : order.Nodup) : ∃ j, j < n ∧ j ∉ order := by
  by_contra hcon
  push_neg at hcon
  have hsub : Finset.range n ⊆ order.toFinset := by
    intro x hx
    rw [List.mem_toFinset]
    exact hcon x (Finset.mem_range.mp hx)
  have hcard := Finset.card_le_card hsub
  rw [Finset.card_range, List.toFinset_card_of_nodup hnd] at hcard
  omega

lemma pathCost_append (dm : List (List ℚ)) (l : List Nat) (j : Nat) (h : l ≠ []) :
    pathCost dm (l ++ [j]) = pathCost dm l + entry dm (lastD l) j := by
  induction l with
  | nil => exact absurd rfl h
  | cons a l ih =>
    cases l with
    | nil =>
      simp only [List.cons_append, List.nil_append, pathCost, lastD, List.getLast?_singleton,
        Option.getD_some]
      ring
    | cons b rest =>
      have hne : b :: rest ≠ [] := List.cons_ne_nil b rest
      simp only [List.cons_append, List.append_eq, pathCost] at ih ⊢
      rw [ih hne]
      have : lastD (a :: b :: rest) = lastD (b :: rest) := by
        simp only [lastD, List.getLast?_cons_cons]
      rw [this]
      ring

/-- Invariant of `nnLoop`: starting from a non-empty duplicate-free
partial path whose visited marks agree with membership and whose running
total is the path's cost, with exactly enough fuel to complete the path,
the loop returns a duplicate-free path of full length `n` whose total is
its recomputed cost, and which extends the initial segment. -/
lemma nnLoop_spec (dm : List (List ℚ)) :
    ∀ fuel order visited total,
      visited.length = dm.length →
      order ≠ [] →
      order.Nodup →
      (∀ j ∈ order, j < dm.length) →
      (∀ j, j < dm.length → (visited.getD j true = true ↔ j ∈ order)) →
      order.length + fuel = dm.length →
      total = pathCost dm order →
      (nnLoop dm fuel order visited total).1.length = dm.length ∧
      (nnLoop dm fuel order visited total).1.Nodup ∧
      (∀ j ∈ (nnLoop dm fuel order visited total).1, j < dm.length) ∧
      (nnLoop dm fuel order visited total).2 =
        pathCost dm (nnLoop dm fuel order visited total).1 := by
  intro fuel
  induction fuel with
  | zero =>
    intro order visited total hvlen hne hnd hmem hvis hfuel htot
    simp only [nnLoop]
    exact ⟨by omega, hnd, hmem, htot⟩
  | succ fuel ih =>
    intro order visited total hvlen hne hnd hmem hvis hfuel htot
    have hlt : order.length < dm.length := by omega
    obtain ⟨j0, hj0n, hj0notin⟩ := exists_unvisited_index order dm.length hlt hmem hnd
    have hsel := nnSelect_spec dm visited (lastD order)
    simp only [nnLoop]
    rcases hs : nnSelect dm visited (lastD order) with _ | ⟨j, d⟩
    · rw [hs] at hsel
      simp only [SelP] at hsel
      have := (hvis j0 hj0n).mp (hsel j0 hj0n)
      exact absurd this hj0notin
    · rw [hs] at hsel
      simp only [SelP] at hsel
      obtain ⟨hjn, huj, hd, -⟩ := hsel
      have hjnotin : j ∉ order := by
        intro hmemj
        rw [(hvis j hjn).mpr hmemj] at huj
        exact Bool.noConfusion huj
      have hlast : lastD order ∈ order := by
        rcases List.exists_cons_of_ne_nil hne with ⟨a, l, rfl⟩
        simp only [lastD]
        rw [List.getLast?_eq_getLast (a :: l) (List.cons_ne_nil a l)]
        simp only [Option.getD_some]
        exact List.getLast_mem (List.cons_ne_nil a l)
      refine ih (order ++ [j]) (visited.set j true) (total + d) ?_ ?_ ?_ ?_ ?_ ?_ ?_
      · rw [List.length_set]; exact hvlen
      · simp
      · rw [List.nodup_append]
        exact ⟨hnd, List.nodup_singleton j, by
          intro a ha hb
          rw [List.mem_singleton] at hb
          rw [hb] at ha
          exact hjnotin ha⟩
      · intro x hx
        rw [List.mem_append] at hx
        rcases hx with hx | hx
        · exact hmem x hx
        · rw [List.mem_singleton] at hx
          rw [hx]
          exact hjn
      · intro x hxn
        by_cases hxj : x = j
        · rw [hxj, getD_set_self visited j true true (by omega)]
          simp
        · rw [getD_set_ne visited x j true true hxj, List.mem_append, List.mem_singleton]
          rw [hvis x hxn]
          exact ⟨fun h => Or.inl h, fun h => h.elim id (fun h2 => absurd h2 hxj)⟩
      · rw [List.length_append, List.length_singleton]
        omega
      · rw [pathCost_append dm order j hne, htot, hd]


/-- Each greedy run from a valid start returns a duplicate-free full-length
path whose total is the recomputed path cost. -/
lemma nnRun_spec (dm : List (List ℚ)) (s : Nat) (hs : s < dm.length) :
    (nnRun dm s).1.length = dm.length ∧
    (nnRun dm s).1.Nodup ∧
    (∀ j ∈ (nnRun dm s).1, j < dm.length) ∧
    (nnRun dm s).2 = pathCost dm (nnRun dm s).1 := by
  refine nnLoop_spec dm (dm.length - 1) [s]
    ((List.replicate dm.length false).set s true) 0 ?_ ?_ ?_ ?_ ?_ ?_ ?_
  · rw [List.length_set, List.length_replicate]
  · exact List.cons_ne_nil s []
  · exact List.nodup_singleton s
  · intro j hj
    rw [List.mem_singleton] at hj
    rw [hj]
    exact hs
  · intro j hjn
    by_cases hjs : j = s
    · rw [hjs, getD_set_self _ s true true (by rw [List.length_replicate]; exact hs)]
      simp
    · rw [getD_set_ne _ j s true true hjs, getD_replicate_lt dm.length j false true hjn]
      simp only [List.mem_singleton]
      exact ⟨fun h => Bool.noConfusion h, fun h => absurd h hjs⟩
  · simp only [List.length_singleton]
    omega
  · simp only [pathCost]

/-! ## Specification of the multi-start scan -/

/-- What the outer `for start in range(m)` loop guarantees: after zero
starts nothing is recorded; afterwards, `(best_order, best_total)` is the
run of the earliest start achieving the minimum total over all starts
scanned so far. -/
def BestP (dm : List (List ℚ)) (m : Nat) :
    Option (List Nat) × Option ℚ → Prop
  | (none, none) => m = 0
  | (some ord, some tot) => ∃ s, s < m ∧ nnRun dm s = (ord, tot) ∧
      ∀ ss, ss < m → tot ≤ (nnRun dm ss).2 ∧ ((nnRun dm ss).2 = tot → s ≤ ss)
  | _ => False

lemma bestFold_spec (dm : List (List ℚ)) :
    ∀ m, BestP dm m ((List.range m).foldl (bestStep dm) (none, none)) := by
  intro m
  induction m with
  | zero =>
    simp only [List.range_zero, List.foldl_nil, BestP]
  | succ m ih =>
    rw [List.range_succ, List.foldl_append, List.foldl_cons, List.foldl_nil]
    rcases hacc : (List.range m).foldl (bestStep dm) (none, none) with ⟨bo, bt⟩
    rw [hacc] at ih
    rcases bo with _ | ord <;> rcases bt with _ | tot
    · simp only [BestP] at ih
      subst ih
      simp only [bestStep, BestP]
      refine ⟨0, Nat.lt_succ_self 0, rfl, ?_⟩
      intro ss hss
      have hss0 : ss = 0 := by omega
      rw [hss0]
      exact ⟨le_refl _, fun _ => le_refl 0⟩
    · exact absurd ih (by simp only [BestP]; exact id)
    · exact absurd ih (by simp only [BestP]; exact id)
    · simp only [BestP] at ih
      obtain ⟨s, hsm, hrun, hmin⟩ := ih
      by_cases hlt : (nnRun dm m).2 < tot
      · have hstep : bestStep dm (some ord, some tot) m =
            (some (nnRun dm m).1, some (nnRun dm m).2) := by
          simp only [bestStep]
          rw [if_pos hlt]
        rw [hstep]
        simp only [BestP]
        refine ⟨m, Nat.lt_succ_self m, rfl, ?_⟩
        intro ss hss
        rcases Nat.lt_succ_iff_lt_or_eq.mp hss with h | h
        · have h1 := (hmin ss h).1
          exact ⟨by linarith, fun heq => by linarith⟩
        · rw [h]
          exact ⟨le_refl _, fun _ => le_refl _⟩
      · have hstep : bestStep dm (some ord, some tot) m = (some ord, some tot) := by
          simp only [bestStep]
          rw [if_neg hlt]
        rw [hstep]
        simp only [BestP]
        refine ⟨s, Nat.lt_succ_of_lt hsm, hrun, ?_⟩
        intro ss hss
        rcases Nat.lt_succ_iff_lt_or_eq.mp hss with h | h
        · exact hmin ss h
        · rw [h]
          exact ⟨le_of_not_lt hlt, fun _ => Nat.le_of_lt hsm⟩

/-- The scan `nnBest` returns the run of the earliest start achieving the minimum
total (or `(none, none)` only on the empty matrix). -/
lemma nnBest_spec (dm : List (List ℚ)) :
    BestP dm dm.length (nnBest dm) :=
  bestFold_spec dm dm.length

/-! ## Permutation helpers -/

/-- Predicate: `l` is a permutation of `0..n-1`: right length, no duplicates, no
out-of-range values, no omissions. -/
def isPermutationOf (n : Nat) (l : List Nat) : Prop :=
  l.length = n ∧ l.Nodup ∧ (∀ x ∈ l, x < n) ∧ ∀ x, x < n → x ∈ l

lemma mem_of_nodup_length_eq (l : List Nat) (n : Nat) (hlen : l.length = n)
    (hnd : l.Nodup) (hmem : ∀ x ∈ l, x < n) : ∀ x, x < n → x ∈ l := by
  intro x hx
  by_contra hnot
  have hsub : l.toFinset ⊆ Finset.range n := by
    intro y hy
    rw [List.mem_toFinset] at hy
    exact Finset.mem_range.mpr (hmem y hy)
  have hss : l.toFinset ⊂ Finset.range n := by
    refine ⟨hsub, fun hrev => ?_⟩
    have := hrev (Finset.mem_range.mpr hx)
    rw [List.mem_toFinset] at this
    exact hnot this
  have hcard := Finset.card_lt_card hss
  rw [Finset.card_range, List.toFinset_card_of_nodup hnd, hlen] at hcard
  omega

lemma isPermutationOf_range (n : Nat) : isPermutationOf n (List.range n) :=
  ⟨List.length_range n, List.nodup_range n, fun x hx => List.mem_range.mp hx,
    fun x hx => List.mem_range.mpr hx⟩

lemma isPermutationOf_of_perm_range (n : Nat) (l : List Nat)
    (h : l.Perm (List.range n)) : isPermutationOf n l := by
  refine ⟨h.length_eq.trans (List.length_range n), h.nodup_iff.mpr (List.nodup_range n),
    fun x hx => List.mem_range.mp (h.mem_iff.mp hx),
    fun x hx => h.mem_iff.mpr (List.mem_range.mpr hx)⟩

/-- Removing the dummy node `n` from a closed tour over `0..n` leaves a
permutation of `0..n-1`. -/
lemma stripDummy_perm (n : Nat) (tour : List Nat)
    (h : tour.Perm (List.range (n + 1))) :
    (stripDummy n tour).Perm (List.range n) := by
  have h2 := h.filter (fun x => decide (x ≠ n))
  have h3 : (List.range (n + 1)).filter (fun x => decide (x ≠ n)) = List.range n := by
    rw [List.range_succ, List.filter_append]
    have hl : (List.range n).filter (fun x => decide (x ≠ n)) = List.range n := by
      rw [List.filter_eq_self]
      intro a ha
      rw [List.mem_range] at ha
      simp only [decide_eq_true_eq]
      omega
    have hr : [n].filter (fun x => decide (x ≠ n)) = [] := by
      simp
    rw [hl, hr, List.append_nil]
  rw [h3] at h2
  exact h2

/-- The three defining properties of `nearest_neighbor_tsp` results on a
non-degenerate matrix, via the multi-start fold. -/
lemma nearest_neighbor_tsp_perm (dm : List (List ℚ)) (ord : List Nat)
    (tot : Option ℚ) (h : nearest_neighbor_tsp dm = (some ord, tot)) :
    isPermutationOf dm.length ord := by
  unfold nearest_neighbor_tsp at h
  by_cases hn : dm.length ≤ 1
  · rw [if_pos hn] at h
    have h1 : some (List.range dm.length) = some ord := congrArg Prod.fst h
    injection h1 with h1
    rw [← h1]
    exact isPermutationOf_range dm.length
  · rw [if_neg hn] at h
    have hspec := nnBest_spec dm
    rw [h] at hspec
    rcases tot with _ | tot
    · exact absurd hspec (by simp only [BestP]; exact id)
    · simp only [BestP] at hspec
      obtain ⟨s, hsn, hrun, -⟩ := hspec
      obtain ⟨hlen, hnd, hmem, -⟩ := nnRun_spec dm s hsn
      rw [hrun] at hlen hnd hmem
      exact ⟨hlen, hnd, hmem, mem_of_nodup_length_eq ord dm.length hlen hnd hmem⟩

/-- The total returned with any recorded `nearest_neighbor_tsp` order is
the recomputed cost of that order. -/
lemma nearest_neighbor_tsp_cost (dm : List (List ℚ)) (ord : List Nat)
    (tot : ℚ) (h : nearest_neighbor_tsp dm = (some ord, some tot)) :
    tot = pathCost dm ord := by
  unfold nearest_neighbor_tsp at h
  by_cases hn : dm.length ≤ 1
  · rw [if_pos hn] at h
    injection h with h1 h2
    injection h1 with h1
    injection h2 with h2
    rw [← h1, ← h2]
    interval_cases hdm : dm.length
    · simp [pathCost]
    · simp [pathCost]
  · rw [if_neg hn] at h
    have hspec := nnBest_spec dm
    rw [h] at hspec
    simp only [BestP] at hspec
    obtain ⟨s, hsn, hrun, -⟩ := hspec
    obtain ⟨-, -, -, hcost⟩ := nnRun_spec dm s hsn
    rw [hrun] at hcost
    exact hcost

/-! ## Claim C1 -/

/-- C1: for every square matrix with non-negative (finite, rational)
entries, the `orderedIndices` returned by the solver — both
`nearest_neighbor_tsp` and the OR-Tools path after stripping the dummy
node (for any engine answer that is a closed tour visiting each augmented
node exactly once) — is a permutation of `0..n-1`: it has length `n`,
contains no duplicates, stays in range, and omits no index. -/
theorem c1_orderedIndices_permutation (dm : List (List ℚ))
    (oracle : List (List ℚ) → Option (List Nat))
    (hsq : isSquare dm) (hpos : nonNeg dm)
    (horacle : ∀ tour, oracle (augMatrix dm) = some tour →
      tour.Perm (List.range (dm.length + 1))) :
    (∀ ord tot, nearest_neighbor_tsp dm = (some ord, tot) →
      isPermutationOf dm.length ord) ∧
    (∀ ord tot, solve_tsp_ortools oracle dm = (some ord, tot) →
      isPermutationOf dm.length ord) := by
  refine ⟨fun ord tot h => nearest_neighbor_tsp_perm dm ord tot h, ?_⟩
  intro ord tot h
  unfold solve_tsp_ortools at h
  by_cases h1 : dm.length ≤ 1
  · rw [if_pos h1] at h
    have h2 : some (List.range dm.length) = some ord := congrArg Prod.fst h
    injection h2 with h2
    rw [← h2]
    exact isPermutationOf_range dm.length
  · rw [if_neg h1] at h
    by_cases h2 : dm.length = 2
    · rw [if_pos h2] at h
      have h3 : some [0, 1] = some ord := congrArg Prod.fst h
      injection h3 with h3
      rw [← h3, h2]
      exact ⟨rfl, by decide, by decide, by decide⟩
    · rw [if_neg h2] at h
      rcases horc : oracle (augMatrix dm) with _ | tour
      · rw [horc] at h
        exact nearest_neighbor_tsp_perm dm ord tot h
      · rw [horc] at h
        have hperm := horacle tour horc
        have h3 : some (stripDummy dm.length tour) = some ord := congrArg Prod.fst h
        injection h3 with h3
        rw [← h3]
        exact isPermutationOf_of_perm_range _ _ (stripDummy_perm dm.length tour hperm)

/-- Witness for C1 at a concrete 3x3 matrix with a concrete engine tour. -/
theorem c1_orderedIndices_permutation_witness :
    isSquare [[(0:ℚ), 1, 2], [1, 0, 3], [2, 3, 0]] ∧
    nonNeg [[(0:ℚ), 1, 2], [1, 0, 3], [2, 3, 0]] ∧
    ((∀ ord tot,
        nearest_neighbor_tsp [[(0:ℚ), 1, 2], [1, 0, 3], [2, 3, 0]] = (some ord, tot) →
        isPermutationOf [[(0:ℚ), 1, 2], [1, 0, 3], [2, 3, 0]].length ord) ∧
     (∀ ord tot,
        solve_tsp_ortools (fun _ => some [3, 0, 2, 1])
          [[(0:ℚ), 1, 2], [1, 0, 3], [2, 3, 0]] = (some ord, tot) →
        isPermutationOf [[(0:ℚ), 1, 2], [1, 0, 3], [2, 3, 0]].length ord)) :=
  ⟨by decide, by decide,
    c1_orderedIndices_permutation [[(0:ℚ), 1, 2], [1, 0, 3], [2, 3, 0]]
      (fun _ => some [3, 0, 2, 1]) (by decide) (by decide)
      (fun tour h => by
        injection h with h2
        rw [← h2]
        decide)⟩

/-! ## Claim C2 -/

/-- C2: the `totalDistance` returned by either solver equals the
recomputed sum of the consecutive edge costs along the returned
`orderedIndices` over the original (non-augmented) matrix, and both
solvers return total `0` when `n ≤ 1`. -/
theorem c2_totalDistance_recomputed (dm : List (List ℚ))
    (oracle : List (List ℚ) → Option (List Nat))
    (hsq : isSquare dm) (hpos : nonNeg dm) :
    (∀ ord tot, nearest_neighbor_tsp dm = (some ord, some tot) →
      tot = pathCost dm ord) ∧
    (∀ ord tot, solve_tsp_ortools oracle dm = (some ord, some tot) →
      tot = pathCost dm ord) ∧
    (dm.length ≤ 1 →
      nearest_neighbor_tsp dm = (some (List.range dm.length), some 0) ∧
      solve_tsp_ortools oracle dm = (some (List.range dm.length), some 0)) := by
  refine ⟨fun ord tot h => nearest_neighbor_tsp_cost dm ord tot h, ?_, ?_⟩
  · intro ord tot h
    unfold solve_tsp_ortools at h
    by_cases h1 : dm.length ≤ 1
    · rw [if_pos h1] at h
      injection h with ho ht
      injection ho with ho
      injection ht with ht
      rw [← ho, ← ht]
      rcases Nat.le_one_iff_eq_zero_or_eq_one.mp h1 with h0 | h0 <;>
        rw [h0] <;> simp [pathCost]
    · rw [if_neg h1] at h
      by_cases h2 : dm.length = 2
      · rw [if_pos h2] at h
        injection h with ho ht
        injection ho with ho
        injection ht with ht
        rw [← ho, ← ht]
        simp [pathCost]
      · rw [if_neg h2] at h
        rcases horc : oracle (augMatrix dm) with _ | tour
        · rw [horc] at h
          exact nearest_neighbor_tsp_cost dm ord tot h
        · rw [horc] at h
          injection h with ho ht
          injection ho with ho
          injection ht with ht
          rw [← ho, ← ht]
  · intro h1
    constructor
    · unfold nearest_neighbor_tsp
      rw [if_pos h1]
    · unfold solve_tsp_ortools
      rw [if_pos h1]

/-- Witness for C2 at a concrete 3x3 matrix and at a 1x1 matrix. -/
theorem c2_totalDistance_recomputed_witness :
    (∀ ord tot, nearest_neighbor_tsp [[(0:ℚ), 1, 2], [1, 0, 3], [2, 3, 0]] =
        (some ord, some tot) →
      tot = pathCost [[(0:ℚ), 1, 2], [1, 0, 3], [2, 3, 0]] ord) ∧
    ([[(0:ℚ)]].length ≤ 1 →
      nearest_neighbor_tsp [[(0:ℚ)]] = (some (List.range [[(0:ℚ)]].length), some 0) ∧
      solve_tsp_ortools (fun _ => none) [[(0:ℚ)]] =
        (some (List.range [[(0:ℚ)]].length), some 0)) :=
  ⟨(c2_totalDistance_recomputed [[(0:ℚ), 1, 2], [1, 0, 3], [2, 3, 0]]
      (fun _ => none) (by decide) (by decide)).1,
   (c2_totalDistance_recomputed [[(0:ℚ)]] (fun _ => none)
      (by decide) (by decide)).2.2⟩

/-! ## Claim C3 -/

/-- C3: the fallback is deterministic — running it twice on the same
matrix yields identical order and cost — with ties among equally-near
unvisited candidates broken by lowest index (any selected next node is
minimal in distance and least-indexed among minimisers) and ties among
starting nodes broken by lowest starting index (the retained result is
the run of the least start achieving the minimal total). -/
theorem c3_deterministic_tie_breaking (dm : List (List ℚ)) :
    nearest_neighbor_tsp dm = nearest_neighbor_tsp dm ∧
    (∀ visited current j d, nnSelect dm visited current = some (j, d) →
      ∀ jj, jj < dm.length → visited.getD jj true = false →
        d ≤ entry dm current jj ∧ (entry dm current jj = d → j ≤ jj)) ∧
    (∀ ord tot, nnBest dm = (some ord, some tot) →
      ∃ s, s < dm.length ∧ nnRun dm s = (ord, tot) ∧
        ∀ ss, ss < dm.length → tot ≤ (nnRun dm ss).2 ∧
          ((nnRun dm ss).2 = tot → s ≤ ss)) := by
  refine ⟨rfl, ?_, ?_⟩
  · intro visited current j d h
    have hspec := nnSelect_spec dm visited current
    rw [h] at hspec
    simp only [SelP] at hspec
    exact hspec.2.2.2
  · intro ord tot h
    have hspec := nnBest_spec dm
    rw [h] at hspec
    simp only [BestP] at hspec
    exact hspec

/-- Witness for C3: on `[[0,5],[3,0]]` the inner scan from node `0` with
`0` visited picks node `1` at distance `5`, and the multi-start result
`([1,0], 3)` is the run of start `1`, minimal over both starts. -/
theorem c3_deterministic_tie_breaking_witness :
    (∀ jj, jj < [[(0:ℚ), 5], [3, 0]].length →
      ([true, false].getD jj true) = false →
      (5:ℚ) ≤ entry [[(0:ℚ), 5], [3, 0]] 0 jj ∧
        (entry [[(0:ℚ), 5], [3, 0]] 0 jj = 5 → 1 ≤ jj)) ∧
    (∃ s, s < [[(0:ℚ), 5], [3, 0]].length ∧
      nnRun [[(0:ℚ), 5], [3, 0]] s = ([1, 0], 3) ∧
      ∀ ss, ss < [[(0:ℚ), 5], [3, 0]].length →
        (3:ℚ) ≤ (nnRun [[(0:ℚ), 5], [3, 0]] ss).2 ∧
          ((nnRun [[(0:ℚ), 5], [3, 0]] ss).2 = 3 →
            s ≤ ss)) :=
  ⟨(c3_deterministic_tie_breaking [[(0:ℚ), 5], [3, 0]]).2.1 [true, false] 0 1 5 rfl,
   (c3_deterministic_tie_breaking [[(0:ℚ), 5], [3, 0]]).2.2 [1, 0] 3 (by
      show bestStep _ (bestStep _ (none, none) 0) 1 = _
      have h0 : bestStep [[(0:ℚ), 5], [3, 0]] (none, none) 0 =
          (some [0, 1], some (0 + 5)) := rfl
      have h1 : nnRun [[(0:ℚ), 5], [3, 0]] 1 = ([1, 0], 0 + 3) := rfl
      rw [h0]
      simp only [bestStep, h1]
      norm_num)⟩

/-! ## Claim C4 -/

/-- C4: for every square non-negative matrix with `n ≥ 2`, the total
returned by `nearest_neighbor_tsp` is the minimum over all starting
nodes of the greedy run total: it is at most every start's run total and
is attained by some start. -/
theorem c4_multistart_minimum (dm : List (List ℚ)) (hsq : isSquare dm)
    (hpos : nonNeg dm) (h2 : 2 ≤ dm.length) :
    ∃ ord tot, nearest_neighbor_tsp dm = (some ord, some tot) ∧
      (∀ s, s < dm.length → tot ≤ (nnRun dm s).2) ∧
      ∃ s, s < dm.length ∧ (nnRun dm s).2 = tot := by
  unfold nearest_neighbor_tsp
  rw [if_neg (by omega)]
  have hspec := nnBest_spec dm
  rcases hb : nnBest dm with ⟨bo, bt⟩
  rw [hb] at hspec
  rcases bo with _ | ord <;> rcases bt with _ | tot
  · simp only [BestP] at hspec
    omega
  · exact absurd hspec (by simp only [BestP]; exact id)
  · exact absurd hspec (by simp only [BestP]; exact id)
  · simp only [BestP] at hspec
    obtain ⟨s, hsn, hrun, hmin⟩ := hspec
    exact ⟨ord, tot, rfl, fun ss hss => (hmin ss hss).1, s, hsn, by rw [hrun]⟩

/-- Witness for C4 at the concrete matrix `[[0,5],[3,0]]`. -/
theorem c4_multistart_minimum_witness :
    ∃ ord tot,
      nearest_neighbor_tsp [[(0:ℚ), 5], [3, 0]] = (some ord, some tot) ∧
      (∀ s, s < [[(0:ℚ), 5], [3, 0]].length →
        tot ≤ (nnRun [[(0:ℚ), 5], [3, 0]] s).2) ∧
      ∃ s, s < [[(0:ℚ), 5], [3, 0]].length ∧
        (nnRun [[(0:ℚ), 5], [3, 0]] s).2 = tot :=
  c4_multistart_minimum [[(0:ℚ), 5], [3, 0]] (by decide) (by decide) (by decide)

/-! ## Claim C10 -/

/-- C10: for every square matrix with `n ≥ 1` (entries are finite
rationals by construction), `nearest_neighbor_tsp` records an order — the
`best_order = None` outcome is unreachable — and no greedy run breaks
early: every run from a valid start builds a path of full length `n`. -/
theorem c10_fallback_order_total (dm : List (List ℚ)) (hsq : isSquare dm)
    (h1 : 1 ≤ dm.length) :
    (nearest_neighbor_tsp dm).1 ≠ none ∧
    ∀ s, s < dm.length → (nnRun dm s).1.length = dm.length := by
  constructor
  · unfold nearest_neighbor_tsp
    by_cases hn : dm.length ≤ 1
    · rw [if_pos hn]
      simp
    · rw [if_neg hn]
      have hspec := nnBest_spec dm
      rcases hb : nnBest dm with ⟨bo, bt⟩
      rw [hb] at hspec
      rcases bo with _ | ord <;> rcases bt with _ | tot
      · simp only [BestP] at hspec
        omega
      · exact absurd hspec (by simp only [BestP]; exact id)
      · exact absurd hspec (by simp only [BestP]; exact id)
      · simp
  · intro s hs
    exact (nnRun_spec dm s hs).1

/-- Witness for C10 at the concrete matrix `[[0,5],[3,0]]`. -/
theorem c10_fallback_order_total_witness :
    (nearest_neighbor_tsp [[(0:ℚ), 5], [3, 0]]).1 ≠ none ∧
    ∀ s, s < [[(0:ℚ), 5], [3, 0]].length →
      (nnRun [[(0:ℚ), 5], [3, 0]] s).1.length = [[(0:ℚ), 5], [3, 0]].length :=
  c10_fallback_order_total [[(0:ℚ), 5], [3, 0]] (by decide) (by decide)

/-! ## Diagonal independence (Claim C9) -/

lemma lastD_mem (l : List Nat) (h : l ≠ []) : lastD l ∈ l := by
  rcases List.exists_cons_of_ne_nil h with ⟨a, t, rfl⟩
  simp only [lastD]
  rw [List.getLast?_eq_getLast (a :: t) (List.cons_ne_nil a t)]
  simp only [Option.getD_some]
  exact List.getLast_mem (List.cons_ne_nil a t)

lemma foldl_congr_fun {α β : Type} (f g : α → β → α) (l : List β) (a : α)
    (h : ∀ acc x, x ∈ l → f acc x = g acc x) : l.foldl f a = l.foldl g a := by
  induction l generalizing a with
  | nil => rfl
  | cons x t ih =>
    simp only [List.foldl_cons]
    rw [h a x (List.mem_cons_self x t)]
    exact ih (g a x) (fun acc y hy => h acc y (List.mem_cons_of_mem x hy))

lemma selStep_congr (dm1 dm2 : List (List ℚ)) (visited : List Bool) (current : Nat)
    (hoff : ∀ i j, i ≠ j → entry dm1 i j = entry dm2 i j)
    (hcur : visited.getD current true = true)
    (acc : Option (Nat × ℚ)) (j : Nat) :
    selStep dm1 visited current acc j = selStep dm2 visited current acc j := by
  by_cases hu : visited.getD j true = false
  · have hne : current ≠ j := by
      intro he
      rw [he, hu] at hcur
      exact Bool.noConfusion hcur
    unfold selStep
    rw [hoff current j hne]
  · have hv : visited.getD j true = true := by
      cases hb : visited.getD j true
      · exact absurd hb hu
      · rfl
    rw [selStep_keep_visited dm1 visited current j acc hv,
      selStep_keep_visited dm2 visited current j acc hv]

lemma nnSelect_congr (dm1 dm2 : List (List ℚ)) (hlen : dm1.length = dm2.length)
    (hoff : ∀ i j, i ≠ j → entry dm1 i j = entry dm2 i j)
    (visited : List Bool) (current : Nat)
    (hcur : visited.getD current true = true) :
    nnSelect dm1 visited current = nnSelect dm2 visited current := by
  unfold nnSelect
  rw [← hlen]
  exact foldl_congr_fun _ _ _ _
    (fun acc x _ => selStep_congr dm1 dm2 visited current hoff hcur acc x)

lemma nnLoop_congr (dm1 dm2 : List (List ℚ)) (hlen : dm1.length = dm2.length)
    (hoff : ∀ i j, i ≠ j → entry dm1 i j = entry dm2 i j) :
    ∀ fuel order visited total,
      visited.length = dm1.length →
      order ≠ [] →
      (∀ j ∈ order, visited.getD j true = true) →
      nnLoop dm1 fuel order visited total = nnLoop dm2 fuel order visited total := by
  intro fuel
  induction fuel with
  | zero =>
    intro order visited total _ _ _
    rfl
  | succ fuel ih =>
    intro order visited total hvlen hne hvis
    have hcur : visited.getD (lastD order) true = true := hvis _ (lastD_mem order hne)
    have hsel := nnSelect_congr dm1 dm2 hlen hoff visited (lastD order) hcur
    simp only [nnLoop]
    rw [← hsel]
    rcases hs : nnSelect dm1 visited (lastD order) with _ | ⟨j, d⟩
    · rfl
    · have hspec := nnSelect_spec dm1 visited (lastD order)
      rw [hs] at hspec
      simp only [SelP] at hspec
      obtain ⟨hjn, -, -, -⟩ := hspec
      apply ih
      · rw [List.length_set]
        exact hvlen
      · simp
      · intro x hx
        rw [List.mem_append, List.mem_singleton] at hx
        rcases hx with hx | hx
        · by_cases hxj : x = j
          · rw [hxj]
            exact getD_set_self visited j true true (by omega)
          · rw [getD_set_ne visited x j true true hxj]
            exact hvis x hx
        · rw [hx]
          exact getD_set_self visited j true true (by omega)

lemma nnRun_congr (dm1 dm2 : List (List ℚ)) (hlen : dm1.length = dm2.length)
    (hoff : ∀ i j, i ≠ j → entry dm1 i j = entry dm2 i j)
    (s : Nat) (hs : s < dm1.length) :
    nnRun dm1 s = nnRun dm2 s := by
  unfold nnRun
  rw [← hlen]
  refine nnLoop_congr dm1 dm2 hlen hoff (dm1.length - 1) [s] _ 0 ?_ (List.cons_ne_nil s []) ?_
  · rw [List.length_set, List.length_replicate]
  · intro j hj
    rw [List.mem_singleton] at hj
    rw [hj]
    exact getD_set_self _ s true true (by rw [List.length_replicate]; exact hs)

lemma nnBest_congr (dm1 dm2 : List (List ℚ)) (hlen : dm1.length = dm2.length)
    (hoff : ∀ i j, i ≠ j → entry dm1 i j = entry dm2 i j) :
    nnBest dm1 = nnBest dm2 := by
  unfold nnBest
  rw [← hlen]
  refine foldl_congr_fun _ _ _ _ (fun acc x hx => ?_)
  rw [List.mem_range] at hx
  simp only [bestStep]
  rw [nnRun_congr dm1 dm2 hlen hoff x hx]

lemma entry_out_of_range (dm : List (List ℚ)) (hsq : isSquare dm) (i j : Nat)
    (h : dm.length ≤ i ∨ dm.length ≤ j) : entry dm i j = 0 := by
  unfold entry
  rcases h with h | h
  · rw [List.getD_eq_default _ _ h]
    exact List.getD_nil
  · by_cases hi : i < dm.length
    · rw [List.getD_eq_getElem dm [] hi]
      exact List.getD_eq_default _ _ (by rw [hsq dm[i] (List.getElem_mem hi)]; exact h)
    · rw [List.getD_eq_default _ _ (Nat.le_of_not_lt hi)]
      exact List.getD_nil

/-- C9: the fallback never reads diagonal entries: on two square matrices
of the same size that agree off the diagonal, `nearest_neighbor_tsp`
returns the same order and the same total cost. -/
theorem c9_diagonal_never_read (dm1 dm2 : List (List ℚ))
    (hsq1 : isSquare dm1) (hsq2 : isSquare dm2)
    (hlen : dm1.length = dm2.length)
    (hoff : ∀ i, i < dm1.length → ∀ j, j < dm1.length → i ≠ j →
      entry dm1 i j = entry dm2 i j) :
    nearest_neighbor_tsp dm1 = nearest_neighbor_tsp dm2 := by
  have hoff2 : ∀ i j, i ≠ j → entry dm1 i j = entry dm2 i j := by
    intro i j hne
    by_cases hi : i < dm1.length
    · by_cases hj : j < dm1.length
      · exact hoff i hi j hj hne
      · rw [entry_out_of_range dm1 hsq1 i j (Or.inr (Nat.le_of_not_lt hj)),
          entry_out_of_range dm2 hsq2 i j (Or.inr (by rw [← hlen]; exact Nat.le_of_not_lt hj))]
    · rw [entry_out_of_range dm1 hsq1 i j (Or.inl (Nat.le_of_not_lt hi)),
        entry_out_of_range dm2 hsq2 i j (Or.inl (by rw [← hlen]; exact Nat.le_of_not_lt hi))]
  unfold nearest_neighbor_tsp
  rw [← hlen]
  by_cases hn : dm1.length ≤ 1
  · rw [if_pos hn, if_pos hn]
  · rw [if_neg hn, if_neg hn]
    exact nnBest_congr dm1 dm2 hlen hoff2

/-- Witness for C9: two concrete 3x3 matrices agreeing off the diagonal
but with different diagonals give identical results. -/
theorem c9_diagonal_never_read_witness :
    isSquare [[(0:ℚ), 5, 2], [5, 0, 4], [2, 4, 0]] ∧
    isSquare [[(9:ℚ), 5, 2], [5, 7, 4], [2, 4, 1]] ∧
    nearest_neighbor_tsp [[(0:ℚ), 5, 2], [5, 0, 4], [2, 4, 0]] =
      nearest_neighbor_tsp [[(9:ℚ), 5, 2], [5, 7, 4], [2, 4, 1]] :=
  ⟨by decide, by decide,
    c9_diagonal_never_read [[(0:ℚ), 5, 2], [5, 0, 4], [2, 4, 0]]
      [[(9:ℚ), 5, 2], [5, 7, 4], [2, 4, 1]] (by decide) (by decide) rfl (by decide)⟩

/-! ## The two-node case (Claim C5) -/

lemma nnRun_two_zero (r0 r1 : List ℚ) :
    nnRun [r0, r1] 0 = ([0, 1], 0 + entry [r0, r1] 0 1) := rfl

lemma nnRun_two_one (r0 r1 : List ℚ) :
    nnRun [r0, r1] 1 = ([1, 0], 0 + entry [r0, r1] 1 0) := rfl

/-- On a 2x2 matrix the multi-start fallback keeps whichever direction is
strictly cheaper, preferring start `0` on ties. -/
lemma nnBest_two (r0 r1 : List ℚ) :
    nnBest [r0, r1] =
      if 0 + entry [r0, r1] 1 0 < 0 + entry [r0, r1] 0 1 then
        (some [1, 0], some (0 + entry [r0, r1] 1 0))
      else (some [0, 1], some (0 + entry [r0, r1] 0 1)) := by
  show bestStep [r0, r1] (bestStep [r0, r1] (none, none) 0) 1 = _
  have h0 : bestStep [r0, r1] (none, none) 0 =
      (some [0, 1], some (0 + entry [r0, r1] 0 1)) := rfl
  rw [h0]
  simp only [bestStep, nnRun_two_one]

/-- Counterexample to C5: on the valid non-symmetric matrix `[[0,5],[3,0]]`
the fallback-only configuration returns `([1,0], 3)`, not
`([0,1], matrix[0][1]) = ([0,1], 5)`. -/
theorem c5_counterexample :
    nearest_neighbor_tsp [[(0:ℚ), 5], [3, 0]] = (some [1, 0], some 3) ∧
    nearest_neighbor_tsp [[(0:ℚ), 5], [3, 0]] ≠ (some [0, 1], some 5) := by
  have h : nearest_neighbor_tsp [[(0:ℚ), 5], [3, 0]] = (some [1, 0], some 3) := by
    unfold nearest_neighbor_tsp
    rw [if_neg (by decide), nnBest_two]
    have e01 : entry [[(0:ℚ), 5], [3, 0]] 0 1 = 5 := rfl
    have e10 : entry [[(0:ℚ), 5], [3, 0]] 1 0 = 3 := rfl
    rw [e01, e10, if_pos (by norm_num)]
    norm_num
  refine ⟨h, ?_⟩
  rw [h]
  simp

/-- C5 (amended): for every square non-negative 2x2 matrix, the
metaheuristic-available configuration returns `([0,1], matrix[0][1])`
before invoking any solver (the result does not depend on the engine
oracle); the fallback-only configuration invokes the multi-start
heuristic, which returns `([0,1], matrix[0][1])` when
`matrix[0][1] ≤ matrix[1][0]` and `([1,0], matrix[1][0])` otherwise. -/
theorem c5_amended_two_node (dm : List (List ℚ)) (hsq : isSquare dm)
    (hpos : nonNeg dm) (h2 : dm.length = 2)
    (oracle : List (List ℚ) → Option (List Nat)) :
    solve_tsp_ortools oracle dm = (some [0, 1], some (entry dm 0 1)) ∧
    (entry dm 0 1 ≤ entry dm 1 0 →
      nearest_neighbor_tsp dm = (some [0, 1], some (entry dm 0 1))) ∧
    (entry dm 1 0 < entry dm 0 1 →
      nearest_neighbor_tsp dm = (some [1, 0], some (entry dm 1 0))) := by
  obtain ⟨r0, r1, rfl⟩ := List.length_eq_two.mp h2
  refine ⟨?_, ?_, ?_⟩
  · unfold solve_tsp_ortools
    rw [if_neg (by norm_num), if_pos h2]
  · intro hle
    unfold nearest_neighbor_tsp
    rw [if_neg (by norm_num), nnBest_two,
      if_neg (by rw [zero_add, zero_add]; exact not_lt.mpr hle), zero_add]
  · intro hlt
    unfold nearest_neighbor_tsp
    rw [if_neg (by norm_num), nnBest_two,
      if_pos (by rw [zero_add, zero_add]; exact hlt), zero_add]

/-- Witness for the amended C5 at the concrete matrix `[[0,5],[3,0]]`. -/
theorem c5_amended_two_node_witness :
    isSquare [[(0:ℚ), 5], [3, 0]] ∧ nonNeg [[(0:ℚ), 5], [3, 0]] ∧
    solve_tsp_ortools (fun _ => none) [[(0:ℚ), 5], [3, 0]] =
      (some [0, 1], some (entry [[(0:ℚ), 5], [3, 0]] 0 1)) ∧
    (entry [[(0:ℚ), 5], [3, 0]] 1 0 < entry [[(0:ℚ), 5], [3, 0]] 0 1 →
      nearest_neighbor_tsp [[(0:ℚ), 5], [3, 0]] =
        (some [1, 0], some (entry [[(0:ℚ), 5], [3, 0]] 1 0))) :=
  ⟨by decide, by decide,
    (c5_amended_two_node [[(0:ℚ), 5], [3, 0]] (by decide) (by decide) rfl
      (fun _ => none)).1,
    (c5_amended_two_node [[(0:ℚ), 5], [3, 0]] (by decide) (by decide) rfl
      (fun _ => none)).2.2⟩

/-! ## Claim C6 -/

/-- Counterexample to C6: the code tags responses with the strings
`"ortools"` / `"nearest_neighbor"`, not `"exact"` / `"heuristic"`. -/
theorem c6_counterexample :
    (main true (fun _ => none) (Request.mk (some []))).solver ≠ "exact" ∧
    (main false (fun _ => none) (Request.mk (some []))).solver ≠ "heuristic" := by
  constructor <;> decide

/-- C6 (amended): for every batch request the response's `solver` field is
the string `"ortools"` when the metaheuristic engine is available in the
runtime and the string `"nearest_neighbor"` when it is not. -/
theorem c6_amended_solver_label (oracle : List (List ℚ) → Option (List Nat))
    (req : Request) :
    (main true oracle req).solver = "ortools" ∧
    (main false oracle req).solver = "nearest_neighbor" :=
  ⟨rfl, rfl⟩

/-! ## Claim C7 -/

/-- Counterexample to C7: a request without the `clusters` key produces a
normal empty response (the code reads it with `data.get("clusters", [])`),
and a cluster whose matrix contains negative values is solved normally —
neither input aborts the batch with a diagnostic. -/
theorem c7_counterexample :
    main false (fun _ => none) (Request.mk none) =
      Response.mk [] "nearest_neighbor" ∧
    main false (fun _ => none)
        (Request.mk (some [Cluster.mk 7 [[0, -1], [-1, 0]]])) =
      Response.mk [Route.mk 7 (some [0, 1]) (some (-1))] "nearest_neighbor" := by
  constructor
  · rfl
  · have h : nearest_neighbor_tsp [[(0:ℚ), -1], [-1, 0]] = (some [0, 1], some (-1)) := by
      unfold nearest_neighbor_tsp
      rw [if_neg (by decide), nnBest_two]
      have e01 : entry [[(0:ℚ), -1], [-1, 0]] 0 1 = -1 := rfl
      have e10 : entry [[(0:ℚ), -1], [-1, 0]] 1 0 = -1 := rfl
      rw [e01, e10, if_neg (by norm_num)]
      norm_num
    show Response.mk
        [Route.mk 7 (nearest_neighbor_tsp [[(0:ℚ), -1], [-1, 0]]).1
          (nearest_neighbor_tsp [[(0:ℚ), -1], [-1, 0]]).2] "nearest_neighbor" = _
    rw [h]

/-- C7 (amended): the batch driver performs no input validation: a request
without the `clusters` key yields a normal response with an empty `routes`
list (and exit status 0), and every cluster of any supplied list —
including clusters whose matrices contain negative values — is solved and
included in the response rather than rejected. -/
theorem c7_amended_no_validation (hasOrtools : Bool)
    (oracle : List (List ℚ) → Option (List Nat)) :
    (main hasOrtools oracle (Request.mk none)).routes = [] ∧
    ∀ cs : List Cluster,
      (main hasOrtools oracle (Request.mk (some cs))).routes.length = cs.length := by
  constructor
  · cases hasOrtools <;> rfl
  · intro cs
    cases hasOrtools <;> simp [main]

/-! ## Claim C8 -/

/-- C8: for every batch request with `k` clusters the driver returns
exactly `k` routes, in input order: position by position the route's
`clusterId` equals the input cluster's `clusterId`. -/
theorem c8_batch_order_preserved (hasOrtools : Bool)
    (oracle : List (List ℚ) → Option (List Nat)) (cs : List Cluster) :
    (main hasOrtools oracle (Request.mk (some cs))).routes.length = cs.length ∧
    (main hasOrtools oracle (Request.mk (some cs))).routes.map Route.clusterId =
      cs.map Cluster.clusterId := by
  constructor <;> cases hasOrtools <;> simp [main]

end VoteMapper
